import Mathlib

/-!
A shallow embedding of the markov crate (src/src/lib.rs): a generic
first-order Markov chain over comparable tokens.

Modelling conventions:
* Rust `HashMap`s are modelled as association lists kept in a fixed but
  arbitrary iteration order (new bindings are appended at the end).
* `Rc<T>` handles compare by the underlying value (`Rc` forwards `Eq`/`Hash`),
  so tokens are modelled as plain values of `T` with decidable equality.
* Rust panics are modelled as explicit `MarkovError` values in an `Except`.
* The unbounded `while` loop of the generation walk takes a fuel bound;
  fuel exhaustion is a distinguished outcome, so a result proved to be
  something other than `outOfFuel` corresponds to a terminating run.
* The random source `task_rng` is modelled as a stream `g : Nat → Nat` of raw
  draws together with a running index; `gen_range(0, sum)` takes the next raw
  draw `r` and yields `r % sum`, after the `low < high` assertion of the
  `rand` crate, which panics when `sum = 0`.
-/

deriving instance DecidableEq for Except

namespace Markov

/-- Outcomes in which the Rust code does not return normally.  The `panic*`
constructors model Rust panics: `panicGenRangeLowGeHigh` is the assertion
failure inside `rng.gen_range(0, sum)` when `sum = 0` (`rand` asserts
`low < high`); `panicUnreachableRng` is the `unreachable!` branch at the end
of `States::next`; `panicKeyNotFound` is the panic from indexing a `HashMap`
at a missing key.  `outOfFuel` is an artifact of the fuel bound put on the
unbounded generation loop and does not correspond to any Rust behaviour other
than non-termination of that loop. -/
inductive MarkovError where
  | panicGenRangeLowGeHigh
  | panicUnreachableRng
  | panicKeyNotFound
  | outOfFuel
  deriving DecidableEq

/-- `true` exactly on the constructors that model a Rust panic (a crash),
as opposed to the fuel artifact. -/
def MarkovError.isPanic : MarkovError → Bool
  | .outOfFuel => false
  | _ => true

variable {T : Type} {α : Type}

/-- First-match association-list lookup, modelling `HashMap::get` /
`contains_key` (and the read side of `HashMap` indexing). -/
def lookup [DecidableEq T] (k : T) : List (T × α) → Option α
  | [] => none
  | (a, b) :: rest => if a = k then some b else lookup k rest

/-- `HashMap::insert`: replace the value at an existing key, otherwise add a
new binding (appended at the end of the iteration order). -/
def insertKV [DecidableEq T] (m : List (T × α)) (k : T) (v : α) : List (T × α) :=
  match m with
  | [] => [(k, v)]
  | (a, b) :: rest => if a = k then (a, v) :: rest else (a, b) :: insertKV rest k v

/-- `States::add` (src/src/lib.rs lines 163-168): an occupied entry is
incremented by one, a vacant entry is set to 1. -/
def States.add [DecidableEq T] (m : List (T × Nat)) (token : T) : List (T × Nat) :=
  match m with
  | [] => [(token, 1)]
  | (a, c) :: rest =>
    if a = token then (a, c + 1) :: rest else (a, c) :: States.add rest token

/-- The total observation count of a transition table: the first summation
loop of `States::next`. -/
def States.total (m : List (T × Nat)) : Nat := (m.map Prod.snd).sum

/-- The scanning loop of `States::next`: accumulate a running sum of counts
and return the first key whose cumulative sum exceeds `cap`; falling off the
end of the table is the `unreachable!` panic. -/
def States.find (m : List (T × Nat)) (cap : Nat) (sum : Nat) : Except MarkovError T :=
  match m with
  | [] => .error .panicUnreachableRng
  | (key, value) :: rest =>
    if sum + value > cap then .ok key else States.find rest cap (sum + value)

/-- `States::next` (src/src/lib.rs lines 170-185): sum all counts, draw
`cap = gen_range(0, sum)` (which panics when `sum = 0`), then scan for the
first entry whose cumulative sum exceeds `cap`.  `r` is the raw draw taken
from the random source; `r % sum` realises a draw uniform in `[0, sum)`. -/
def States.next (m : List (T × Nat)) (r : Nat) : Except MarkovError T :=
  if States.total m = 0 then .error .panicGenRangeLowGeHigh
  else States.find m (r % States.total m) 0

/-- The chain state (src/src/lib.rs lines 26-30): a map from each known token
to its transition table, plus the start and end sentinel tokens. -/
structure Chain (T : Type) where
  map : List (T × List (T × Nat))
  start : T
  «end» : T
  deriving DecidableEq

/-- `Chain::new` (src/src/lib.rs lines 34-46): both sentinels are inserted
with empty transition tables. -/
def Chain.new [DecidableEq T] (start «end» : T) : Chain T :=
  { map := insertKV (insertKV [] start []) «end» []
    start := start
    «end» := «end» }

/-- The per-token registration step inside `Chain::feed`: if the token is not
yet a key of the map, insert it with an empty transition table. -/
def registerTok [DecidableEq T] (m : List (T × List (T × Nat))) (t : T) :
    List (T × List (T × Nat)) :=
  if (lookup t m).isNone then insertKV m t [] else m

/-- One step of the window loop of `Chain::feed`: `self.map[a].add(b)`.
Indexing the map at a missing key is a panic. -/
def recordPair [DecidableEq T] (m : List (T × List (T × Nat))) (a b : T) :
    Except MarkovError (List (T × List (T × Nat))) :=
  match lookup a m with
  | none => .error .panicKeyNotFound
  | some tbl => .ok (insertKV m a (States.add tbl b))

/-- The window loop of `Chain::feed`: for every consecutive pair `(a, b)` of
the token list, record `b` in `a`'s transition table. -/
def recordPairs [DecidableEq T] (m : List (T × List (T × Nat))) :
    List T → Except MarkovError (List (T × List (T × Nat)))
  | a :: b :: rest =>
    match recordPair m a b with
    | .error e => .error e
    | .ok m2 => recordPairs m2 (b :: rest)
  | _ => .ok m

/-- `Chain::feed` (src/src/lib.rs lines 50-66): an empty input returns at
once; otherwise every token is registered (in order), the token list is
bracketed by the start and end sentinels, and every consecutive pair is
recorded. -/
def Chain.feed [DecidableEq T] (c : Chain T) (tokens : List T) :
    Except MarkovError (Chain T) :=
  if tokens.length = 0 then .ok c
  else
    let m1 := tokens.foldl registerTok c.map
    let toks := (c.start :: tokens) ++ [c.«end»]
    match recordPairs m1 toks with
    | .error e => .error e
    | .ok m2 => .ok { c with map := m2 }

/-- The `while curs != end` loop shared by `Chain::generate` and
`Chain::generate_from_token`: look up the current token's table, sample a
successor, push it, repeat.  `i` is the index of the next raw draw of the
random stream `g`; `ret` is the output accumulated so far. -/
def Chain.walk [DecidableEq T] (c : Chain T) (g : Nat → Nat) :
    Nat → Nat → T → List T → Except MarkovError (List T)
  | 0, _, _, _ => .error .outOfFuel
  | fuel + 1, i, curs, ret =>
    if curs = c.«end» then .ok ret
    else
      match lookup curs c.map with
      | none => .error .panicKeyNotFound
      | some tbl =>
        match States.next tbl (g i) with
        | .error e => .error e
        | .ok t => Chain.walk c g fuel (i + 1) t (ret ++ [t])

/-- `Chain::generate` (src/src/lib.rs lines 71-80): walk from the start
sentinel with an empty output vector and pop the trailing end sentinel. -/
def Chain.generate [DecidableEq T] (c : Chain T) (g : Nat → Nat) (fuel : Nat) :
    Except MarkovError (List T) :=
  match c.walk g fuel 0 c.start [] with
  | .error e => .error e
  | .ok l => .ok l.dropLast

/-- `Chain::generate_from_token` (src/src/lib.rs lines 85-95): walk from the
given token, which is pre-pushed onto the output, and pop the last element. -/
def Chain.generate_from_token [DecidableEq T] (c : Chain T) (g : Nat → Nat)
    (fuel : Nat) (token : T) : Except MarkovError (List T) :=
  match c.walk g fuel 0 token [token] with
  | .error e => .error e
  | .ok l => .ok l.dropLast

/-- The count stored for successor `b` in the transition table of `a`
(0 when the key or the successor is absent), read off a raw map. -/
def tblCount [DecidableEq T] (m : List (T × List (T × Nat))) (a b : T) : Nat :=
  (lookup b ((lookup a m).getD [])).getD 0

/-- The count stored for successor `b` in the transition table of `a`. -/
def Chain.count [DecidableEq T] (c : Chain T) (a b : T) : Nat := tblCount c.map a b

/-- The sum of all counts of all transition tables of a raw map. -/
def gtMap (m : List (T × List (T × Nat))) : Nat :=
  (m.map (fun p => States.total p.2)).sum

/-- The sum of all counts over all transition tables of the chain. -/
def Chain.grandTotal (c : Chain T) : Nat := gtMap c.map

/-- The number of occurrences of `(a, b)` as a consecutive pair of the list:
how many of the windows of `Chain::feed` record this pair. -/
def pairOcc [DecidableEq T] : List T → T → T → Nat
  | x :: y :: rest, a, b => (if x = a ∧ y = b then 1 else 0) + pairOcc (y :: rest) a b
  | _, _, _ => 0

/-- Every count stored in every transition table of the raw map is positive. -/
def posMap (m : List (T × List (T × Nat))) : Prop := ∀ p ∈ m, ∀ q ∈ p.2, 0 < q.2

instance [DecidableEq T] (m : List (T × List (T × Nat))) : Decidable (posMap m) := by
  unfold posMap
  infer_instance

/-- The chain invariant: both sentinels are keys of the table and every
stored count is positive. -/
def Chain.Inv [DecidableEq T] (c : Chain T) : Prop :=
  lookup c.start c.map ≠ none ∧ lookup c.«end» c.map ≠ none ∧ posMap c.map

instance [DecidableEq T] (c : Chain T) : Decidable c.Inv := by
  unfold Chain.Inv
  infer_instance

/-- The sum of the counts of the first `i` entries of a transition table. -/
def cum (m : List (T × Nat)) (i : Nat) : Nat := ((m.take i).map Prod.snd).sum

/-- Modelled from the spec: `t` is the key of the first entry, in iteration
order, whose cumulative count exceeds the draw `r` (the CDF-inversion choice
of the weighted-sampling description in the spec, section 4.2). -/
def IsFirstExceed (m : List (T × Nat)) (r : Nat) (t : T) : Prop :=
  ∃ i, ∃ hi : i < m.length,
    (m.get ⟨i, hi⟩).1 = t ∧ r < cum m (i + 1) ∧ ∀ j < i, cum m (j + 1) ≤ r

/-- `FollowsTo c x l`: from token `x` the chain walks deterministically along
`l`, each visited table holding exactly one successor with count one, until
the end sentinel closes the path. -/
def FollowsTo [DecidableEq T] (c : Chain T) : T → List T → Prop
  | x, [] => x = c.«end»
  | x, y :: rest => x ≠ c.«end» ∧ lookup x c.map = some [(y, 1)] ∧ FollowsTo c y rest

/-- `PathTables M p`: along the path `p`, each token's table in the raw map
`M` is exactly the singleton holding its successor in `p` with count one. -/
def PathTables [DecidableEq T] (M : List (T × List (T × Nat))) : List T → Prop
  | a :: b :: rest => lookup a M = some [(b, 1)] ∧ PathTables M (b :: rest)
  | _ => True

/-- The chain state reached from `new(0, 100)` by `feed([3, 5, 10])` then
`feed([5, 12])` (proved equal to that build in claim C6's theorem). -/
def chainC6 : Chain Nat :=
  ⟨[(0, [(3, 1), (5, 1)]), (100, []), (3, [(5, 1)]), (5, [(10, 1), (12, 1)]),
    (10, [(100, 1)]), (12, [(100, 1)])], 0, 100⟩

/-! ### Association-list lemmas -/

theorem lookup_insertKV_self [DecidableEq T] (m : List (T × α)) (k : T) (v : α) :
    lookup k (insertKV m k v) = some v := by
  induction m with
  | nil => simp [insertKV, lookup]
  | cons p rest ih =>
    obtain ⟨a, b⟩ := p
    by_cases h : a = k
    · simp [insertKV, h, lookup]
    · simp [insertKV, h, lookup, ih]

theorem lookup_insertKV_ne [DecidableEq T] (m : List (T × α)) (k x : T) (v : α)
    (h : x ≠ k) : lookup x (insertKV m k v) = lookup x m := by
  induction m with
  | nil =>
    simp only [insertKV, lookup]
    rw [if_neg (fun hh : k = x => h hh.symm)]
  | cons p rest ih =>
    obtain ⟨a, b⟩ := p
    simp only [insertKV]
    by_cases ha : a = k
    · rw [if_pos ha]
      simp only [lookup]
      have hax : ¬ a = x := fun hh => h (by rw [← hh, ha])
      rw [if_neg hax, if_neg hax]
    · rw [if_neg ha]
      simp only [lookup]
      by_cases hax : a = x
      · rw [if_pos hax, if_pos hax]
      · rw [if_neg hax, if_neg hax, ih]

theorem lookup_insertKV_isSome [DecidableEq T] (m : List (T × α)) (k x : T) (v : α)
    (h : lookup x m ≠ none) : lookup x (insertKV m k v) ≠ none := by
  by_cases hx : x = k
  · subst hx
    rw [lookup_insertKV_self]
    exact Option.some_ne_none v
  · rw [lookup_insertKV_ne m k x v hx]
    exact h

theorem mem_insertKV [DecidableEq T] (m : List (T × α)) (k : T) (v : α) (p : T × α)
    (h : p ∈ insertKV m k v) : p ∈ m ∨ p.2 = v := by
  induction m with
  | nil =>
    simp only [insertKV, List.mem_singleton] at h
    exact Or.inr (by rw [h])
  | cons q rest ih =>
    obtain ⟨a, b⟩ := q
    simp only [insertKV] at h
    by_cases ha : a = k
    · rw [if_pos ha] at h
      rcases List.mem_cons.mp h with h1 | h1
      · exact Or.inr (by rw [h1])
      · exact Or.inl (List.mem_cons_of_mem _ h1)
    · rw [if_neg ha] at h
      rcases List.mem_cons.mp h with h1 | h1
      · exact Or.inl (by rw [h1]; exact List.mem_cons_self _ _)
      · rcases ih h1 with h2 | h2
        · exact Or.inl (List.mem_cons_of_mem _ h2)
        · exact Or.inr h2

theorem lookup_mem [DecidableEq T] (m : List (T × α)) (k : T) (v : α)
    (h : lookup k m = some v) : (k, v) ∈ m := by
  induction m with
  | nil => simp [lookup] at h
  | cons q rest ih =>
    obtain ⟨a, b⟩ := q
    simp only [lookup] at h
    by_cases ha : a = k
    · rw [if_pos ha] at h
      have hb : b = v := Option.some.inj h
      subst ha
      subst hb
      exact List.mem_cons_self _ _
    · rw [if_neg ha] at h
      exact List.mem_cons_of_mem _ (ih h)

/-! ### Transition-table (`States`) lemmas -/

theorem lookup_add_getD [DecidableEq T] (m : List (T × Nat)) (b x : T) :
    (lookup x (States.add m b)).getD 0 =
      (lookup x m).getD 0 + (if x = b then 1 else 0) := by
  induction m with
  | nil =>
    simp only [States.add, lookup]
    by_cases hx : b = x
    · rw [if_pos hx, if_pos hx.symm]
      rfl
    · rw [if_neg hx, if_neg (fun hh : x = b => hx hh.symm)]
      rfl
  | cons q rest ih =>
    obtain ⟨a, c⟩ := q
    simp only [States.add]
    by_cases hab : a = b
    · rw [if_pos hab]
      simp only [lookup]
      by_cases hax : a = x
      · rw [if_pos hax, if_pos hax]
        have hxb : x = b := by rw [← hax, hab]
        rw [if_pos hxb]
        rfl
      · rw [if_neg hax, if_neg hax]
        have hxb : ¬ x = b := fun hh => hax (by rw [hab, ← hh])
        rw [if_neg hxb]
        rfl
    · rw [if_neg hab]
      simp only [lookup]
      by_cases hax : a = x
      · rw [if_pos hax, if_pos hax]
        have hxb : ¬ x = b := fun hh => hab (by rw [hax, hh])
        rw [if_neg hxb]
        rfl
      · rw [if_neg hax, if_neg hax]
        exact ih

theorem total_add [DecidableEq T] (m : List (T × Nat)) (b : T) :
    States.total (States.add m b) = States.total m + 1 := by
  induction m with
  | nil => simp [States.add, States.total]
  | cons q rest ih =>
    obtain ⟨a, c⟩ := q
    by_cases hab : a = b
    · simp [States.add, hab, States.total]
      omega
    · simp [States.add, hab, States.total] at ih ⊢
      omega

theorem mem_add_pos [DecidableEq T] (m : List (T × Nat)) (b : T)
    (hm : ∀ q ∈ m, 0 < q.2) (q : T × Nat) (hq : q ∈ States.add m b) : 0 < q.2 := by
  induction m with
  | nil =>
    simp only [States.add, List.mem_singleton] at hq
    subst hq
    exact Nat.one_pos
  | cons p rest ih =>
    obtain ⟨a, c⟩ := p
    by_cases hab : a = b
    · simp only [States.add, if_pos hab, List.mem_cons] at hq
      rcases hq with hq | hq
      · subst hq
        exact Nat.succ_pos c
      · exact hm q (List.mem_cons_of_mem _ hq)
    · simp only [States.add, if_neg hab, List.mem_cons] at hq
      rcases hq with hq | hq
      · subst hq
        exact hm (a, c) (List.mem_cons_self _ _)
      · exact ih (fun r hr => hm r (List.mem_cons_of_mem _ hr)) hq

/-! ### Registration (`registerTok`) lemmas -/

theorem lookup_registerTok_some [DecidableEq T] (m : List (T × List (T × Nat)))
    (t x : T) (v : List (T × Nat)) (h : lookup x m = some v) :
    lookup x (registerTok m t) = some v := by
  unfold registerTok
  by_cases ht : (lookup t m).isNone
  · rw [if_pos ht]
    have hxt : x ≠ t := by
      intro hh
      subst hh
      rw [h] at ht
      simp at ht
    rw [lookup_insertKV_ne m t x [] hxt]
    exact h
  · rw [if_neg ht]
    exact h

theorem lookup_foldl_register_some [DecidableEq T] (ts : List T)
    (m : List (T × List (T × Nat))) (x : T) (v : List (T × Nat))
    (h : lookup x m = some v) : lookup x (ts.foldl registerTok m) = some v := by
  induction ts generalizing m with
  | nil => exact h
  | cons t rest ih => exact ih _ (lookup_registerTok_some m t x v h)

theorem lookup_foldl_register_mem [DecidableEq T] (ts : List T)
    (m : List (T × List (T × Nat))) (x : T) (hx : x ∈ ts) :
    lookup x (ts.foldl registerTok m) = some ((lookup x m).getD []) := by
  induction ts generalizing m with
  | nil => simp at hx
  | cons t rest ih =>
    rcases List.mem_cons.mp hx with h | h
    · subst h
      rcases hv : lookup x m with _ | v
      · have hreg : lookup x (registerTok m x) = some [] := by
          unfold registerTok
          rw [if_pos (by simp [hv])]
          exact lookup_insertKV_self m x []
        simp only [List.foldl_cons, hv, Option.getD_none]
        exact lookup_foldl_register_some rest _ x [] hreg
      · simp only [List.foldl_cons, hv, Option.getD_some]
        exact lookup_foldl_register_some rest _ x v (lookup_registerTok_some m x x v hv)
    · rcases hv : lookup x m with _ | v
      · have : lookup x (registerTok m t) = lookup x m ∨
            lookup x (registerTok m t) = some [] := by
          unfold registerTok
          by_cases ht : (lookup t m).isNone
          · rw [if_pos ht]
            by_cases hxt : x = t
            · subst hxt
              exact Or.inr (lookup_insertKV_self m x [])
            · exact Or.inl (lookup_insertKV_ne m t x [] hxt)
          · exact Or.inl (by rw [if_neg ht])
        rcases this with h2 | h2
        · simp only [List.foldl_cons]
          rw [ih _ h]
          rw [h2, hv]
        · simp only [List.foldl_cons, hv, Option.getD_none]
          exact lookup_foldl_register_some rest _ x [] h2
      · simp only [List.foldl_cons, hv, Option.getD_some]
        exact lookup_foldl_register_some rest _ x v (lookup_registerTok_some m t x v hv)

theorem lookup_foldl_register_not_mem [DecidableEq T] (ts : List T)
    (m : List (T × List (T × Nat))) (x : T) (hx : x ∉ ts) :
    lookup x (ts.foldl registerTok m) = lookup x m := by
  induction ts generalizing m with
  | nil => rfl
  | cons t rest ih =>
    have hxt : x ≠ t := fun hh => hx (by simp [hh])
    have hxrest : x ∉ rest := fun hh => hx (List.mem_cons_of_mem _ hh)
    simp only [List.foldl_cons]
    rw [ih _ hxrest]
    unfold registerTok
    by_cases ht : (lookup t m).isNone
    · rw [if_pos ht]
      exact lookup_insertKV_ne m t x [] hxt
    · rw [if_neg ht]

theorem mem_foldl_register [DecidableEq T] (ts : List T)
    (m : List (T × List (T × Nat))) (p : T × List (T × Nat))
    (h : p ∈ ts.foldl registerTok m) : p ∈ m ∨ p.2 = [] := by
  induction ts generalizing m with
  | nil => exact Or.inl h
  | cons t rest ih =>
    rcases ih _ h with h2 | h2
    · unfold registerTok at h2
      by_cases ht : (lookup t m).isNone
      · rw [if_pos ht] at h2
        exact mem_insertKV m t [] p h2
      · rw [if_neg ht] at h2
        exact Or.inl h2
    · exact Or.inr h2

theorem gtMap_insertKV_absent [DecidableEq T] (m : List (T × List (T × Nat)))
    (k : T) (h : lookup k m = none) :
    gtMap (insertKV m k []) = gtMap m := by
  induction m with
  | nil => simp [insertKV, gtMap, States.total]
  | cons q rest ih =>
    obtain ⟨a, b⟩ := q
    by_cases ha : a = k
    · simp [lookup, ha] at h
    · simp only [lookup, if_neg ha] at h
      simp [insertKV, ha, gtMap] at ih ⊢
      rw [ih h]

theorem gtMap_foldl_register [DecidableEq T] (ts : List T)
    (m : List (T × List (T × Nat))) :
    gtMap (ts.foldl registerTok m) = gtMap m := by
  induction ts generalizing m with
  | nil => rfl
  | cons t rest ih =>
    simp only [List.foldl_cons]
    rw [ih]
    unfold registerTok
    by_cases ht : (lookup t m).isNone
    · rw [if_pos ht]
      exact gtMap_insertKV_absent m t (Option.isNone_iff_eq_none.mp ht)
    · rw [if_neg ht]

theorem tblCount_foldl_register [DecidableEq T] (ts : List T)
    (m : List (T × List (T × Nat))) (x y : T) :
    tblCount (ts.foldl registerTok m) x y = tblCount m x y := by
  unfold tblCount
  rcases hv : lookup x m with _ | v
  · by_cases hx : x ∈ ts
    · rw [lookup_foldl_register_mem ts m x hx, hv]
      simp [lookup]
    · rw [lookup_foldl_register_not_mem ts m x hx, hv]
  · rw [lookup_foldl_register_some ts m x v hv]

/-! ### Recording (`recordPair`, `recordPairs`) lemmas -/

theorem dropLast_cons_cons (a b : T) (l : List T) :
    (a :: b :: l).dropLast = a :: (b :: l).dropLast := by
  simp [List.dropLast]

theorem recordPair_eq [DecidableEq T] (m : List (T × List (T × Nat))) (a b : T)
    (tbl : List (T × Nat)) (h : lookup a m = some tbl) :
    recordPair m a b = .ok (insertKV m a (States.add tbl b)) := by
  unfold recordPair
  rw [h]

theorem recordPair_count [DecidableEq T] (m m2 : List (T × List (T × Nat))) (a b : T)
    (h : recordPair m a b = .ok m2) (x y : T) :
    tblCount m2 x y = tblCount m x y + (if a = x ∧ b = y then 1 else 0) := by
  unfold recordPair at h
  rcases htbl : lookup a m with _ | tbl
  · rw [htbl] at h
    exact absurd h (by simp)
  · rw [htbl] at h
    have hm2 : m2 = insertKV m a (States.add tbl b) := (Except.ok.inj h).symm
    subst hm2
    unfold tblCount
    by_cases hax : x = a
    · subst hax
      rw [lookup_insertKV_self, htbl, Option.getD_some, Option.getD_some]
      rw [lookup_add_getD tbl b y]
      by_cases hby : y = b
      · rw [if_pos hby, if_pos ⟨rfl, hby.symm⟩]
      · rw [if_neg hby, if_neg (fun hh => hby hh.2.symm)]
    · rw [lookup_insertKV_ne m a x _ hax]
      rw [if_neg (fun hh : a = x ∧ b = y => hax hh.1.symm)]
      rfl

theorem recordPair_keys [DecidableEq T] (m m2 : List (T × List (T × Nat))) (a b : T)
    (h : recordPair m a b = .ok m2) (x : T) :
    (lookup x m2 = none ↔ lookup x m = none) := by
  unfold recordPair at h
  rcases htbl : lookup a m with _ | tbl
  · rw [htbl] at h
    exact absurd h (by simp)
  · rw [htbl] at h
    have hm2 : m2 = insertKV m a (States.add tbl b) := (Except.ok.inj h).symm
    subst hm2
    by_cases hax : x = a
    · subst hax
      rw [lookup_insertKV_self, htbl]
      simp
    · rw [lookup_insertKV_ne m a x _ hax]

theorem gtMap_insertKV_add [DecidableEq T] (m : List (T × List (T × Nat))) (a b : T)
    (tbl : List (T × Nat)) (h : lookup a m = some tbl) :
    gtMap (insertKV m a (States.add tbl b)) = gtMap m + 1 := by
  induction m with
  | nil => simp [lookup] at h
  | cons q rest ih =>
    obtain ⟨k, t⟩ := q
    simp only [lookup] at h
    by_cases hk : k = a
    · rw [if_pos hk] at h
      have ht : t = tbl := Option.some.inj h
      subst ht
      simp only [insertKV, if_pos hk, gtMap, List.map_cons, List.sum_cons]
      rw [total_add]
      omega
    · rw [if_neg hk] at h
      simp only [insertKV, if_neg hk, gtMap, List.map_cons, List.sum_cons]
      have := ih h
      simp only [gtMap] at this
      omega

theorem recordPair_gtMap [DecidableEq T] (m m2 : List (T × List (T × Nat))) (a b : T)
    (h : recordPair m a b = .ok m2) : gtMap m2 = gtMap m + 1 := by
  unfold recordPair at h
  rcases htbl : lookup a m with _ | tbl
  · rw [htbl] at h
    exact absurd h (by simp)
  · rw [htbl] at h
    have hm2 : m2 = insertKV m a (States.add tbl b) := (Except.ok.inj h).symm
    subst hm2
    exact gtMap_insertKV_add m a b tbl htbl

theorem recordPair_pos [DecidableEq T] (m m2 : List (T × List (T × Nat))) (a b : T)
    (h : recordPair m a b = .ok m2) (hm : posMap m) : posMap m2 := by
  unfold recordPair at h
  rcases htbl : lookup a m with _ | tbl
  · rw [htbl] at h
    exact absurd h (by simp)
  · rw [htbl] at h
    have hm2 : m2 = insertKV m a (States.add tbl b) := (Except.ok.inj h).symm
    subst hm2
    intro p hp q hq
    rcases mem_insertKV m a _ p hp with h2 | h2
    · exact hm p h2 q hq
    · rw [h2] at hq
      exact mem_add_pos tbl b (fun r hr => hm (a, tbl) (lookup_mem m a tbl htbl) r hr) q hq

theorem recordPairs_spec [DecidableEq T] (toks : List T)
    (m : List (T × List (T × Nat)))
    (h : ∀ x ∈ toks.dropLast, lookup x m ≠ none) :
    ∃ m2, recordPairs m toks = .ok m2 ∧
      (∀ x y, tblCount m2 x y = tblCount m x y + pairOcc toks x y) ∧
      (∀ x, lookup x m2 = none ↔ lookup x m = none) ∧
      gtMap m2 = gtMap m + (toks.length - 1) ∧
      (posMap m → posMap m2) := by
  induction toks generalizing m with
  | nil =>
    exact ⟨m, rfl, fun x y => by simp [pairOcc], fun x => Iff.rfl, by simp, fun hp => hp⟩
  | cons a rest ih =>
    cases rest with
    | nil =>
      exact ⟨m, rfl, fun x y => by simp [pairOcc], fun x => Iff.rfl, by simp, fun hp => hp⟩
    | cons b rest2 =>
      have ha : lookup a m ≠ none := by
        apply h
        rw [dropLast_cons_cons]
        exact List.mem_cons_self _ _
      rcases htbl : lookup a m with _ | tbl
      · exact absurd htbl ha
      have hrp : recordPair m a b = .ok (insertKV m a (States.add tbl b)) :=
        recordPair_eq m a b tbl htbl
      set m1 := insertKV m a (States.add tbl b) with hm1
      have hkeys1 : ∀ x, lookup x m1 = none ↔ lookup x m = none :=
        recordPair_keys m m1 a b hrp
      have hih : ∀ x ∈ (b :: rest2).dropLast, lookup x m1 ≠ none := by
        intro x hx
        intro hnone
        have hxm : lookup x m = none := (hkeys1 x).mp hnone
        have : x ∈ (a :: b :: rest2).dropLast := by
          rw [dropLast_cons_cons]
          exact List.mem_cons_of_mem _ hx
        exact h x this hxm
      rcases ih m1 hih with ⟨m2, hrec, hcount, hkeys, hgt, hpos⟩
      refine ⟨m2, ?_, ?_, ?_, ?_, ?_⟩
      · simp only [recordPairs]
        rw [hrp]
        exact hrec
      · intro x y
        rw [hcount x y, recordPair_count m m1 a b hrp x y]
        simp only [pairOcc]
        omega
      · intro x
        rw [hkeys x, hkeys1 x]
      · rw [hgt, recordPair_gtMap m m1 a b hrp]
        simp only [List.length_cons]
        omega
      · intro hp
        exact hpos (recordPair_pos m m1 a b hrp hp)

/-! ### `Chain::feed` characterization -/

theorem register_keys_iff [DecidableEq T] (ts : List T)
    (m : List (T × List (T × Nat))) (x : T) :
    (lookup x (ts.foldl registerTok m) = none ↔ (lookup x m = none ∧ x ∉ ts)) := by
  by_cases hx : x ∈ ts
  · rw [lookup_foldl_register_mem ts m x hx]
    simp [hx]
  · rw [lookup_foldl_register_not_mem ts m x hx]
    simp [hx]

theorem feed_spec [DecidableEq T] (c : Chain T) (ts : List T) (hts : ts ≠ [])
    (hs : lookup c.start c.map ≠ none) :
    ∃ c2, c.feed ts = .ok c2 ∧ c2.start = c.start ∧ c2.«end» = c.«end» ∧
      (∀ x y, tblCount c2.map x y =
        tblCount c.map x y + pairOcc ((c.start :: ts) ++ [c.«end»]) x y) ∧
      (∀ x, lookup x c2.map = none ↔ (lookup x c.map = none ∧ x ∉ ts)) ∧
      gtMap c2.map = gtMap c.map + (ts.length + 1) ∧
      (posMap c.map → posMap c2.map) := by
  have hlen : ¬ ts.length = 0 := fun hh => hts (List.length_eq_zero.mp hh)
  set m1 := ts.foldl registerTok c.map with hm1
  set toks := (c.start :: ts) ++ [c.«end»] with htoks
  have hdrop : toks.dropLast = c.start :: ts := by
    rw [htoks, List.dropLast_concat]
  have hsources : ∀ x ∈ toks.dropLast, lookup x m1 ≠ none := by
    intro x hx
    rw [hdrop] at hx
    rcases List.mem_cons.mp hx with h1 | h1
    · rcases hv : lookup x c.map with _ | v
      · rw [h1] at hv
        exact absurd hv hs
      · rw [hm1, lookup_foldl_register_some ts c.map x v hv]
        simp
    · rw [hm1, lookup_foldl_register_mem ts c.map x h1]
      simp
  rcases recordPairs_spec toks m1 hsources with ⟨m2, hrec, hcount, hkeys, hgt, hpos⟩
  refine ⟨{ c with map := m2 }, ?_, rfl, rfl, ?_, ?_, ?_, ?_⟩
  · unfold Chain.feed
    rw [if_neg hlen]
    simp only [← hm1, ← htoks]
    rw [hrec]
  · intro x y
    have := hcount x y
    rw [tblCount_foldl_register ts c.map x y] at this
    exact this
  · intro x
    rw [hkeys x, hm1, register_keys_iff ts c.map x]
  · rw [hgt, hm1, gtMap_foldl_register ts c.map]
    have hlen2 : toks.length = ts.length + 2 := by
      rw [htoks]
      simp
    rw [hlen2]
    omega
  · intro hp
    apply hpos
    intro p hp2 q hq
    rcases mem_foldl_register ts c.map p hp2 with h2 | h2
    · exact hp p h2 q hq
    · rw [h2] at hq
      simp at hq

/-! ### Sampling (`States::next`) lemmas -/

theorem cum_cons (k : T) (v : Nat) (rest : List (T × Nat)) (i : Nat) :
    cum ((k, v) :: rest) (i + 1) = v + cum rest i := by
  simp [cum]

theorem total_cons (k : T) (v : Nat) (rest : List (T × Nat)) :
    States.total ((k, v) :: rest) = v + States.total rest := by
  simp [States.total]

theorem find_spec (m : List (T × Nat)) :
    ∀ (cap acc : Nat), acc ≤ cap → cap < acc + States.total m →
    ∃ i, ∃ hi : i < m.length, States.find m cap acc = .ok (m.get ⟨i, hi⟩).1 ∧
      cap < acc + cum m (i + 1) ∧ ∀ j < i, acc + cum m (j + 1) ≤ cap := by
  induction m with
  | nil =>
    intro cap acc h1 h2
    simp only [States.total, List.map_nil, List.sum_nil, Nat.add_zero] at h2
    omega
  | cons p rest ih =>
    obtain ⟨k, v⟩ := p
    intro cap acc h1 h2
    by_cases hv : acc + v > cap
    · refine ⟨0, Nat.succ_pos _, ?_, ?_, ?_⟩
      · simp only [States.find]
        rw [if_pos hv]
        rfl
      · rw [cum_cons]
        simp only [cum, List.take_zero, List.map_nil, List.sum_nil, Nat.add_zero]
        omega
      · intro j hj
        omega
    · rw [total_cons] at h2
      rcases ih cap (acc + v) (by omega) (by omega) with ⟨i, hi, hfind, hcum, hprev⟩
      refine ⟨i + 1, Nat.succ_lt_succ hi, ?_, ?_, ?_⟩
      · simp only [States.find]
        rw [if_neg hv]
        exact hfind
      · rw [cum_cons]
        omega
      · intro j hj
        cases j with
        | zero =>
          rw [cum_cons]
          simp only [cum, List.take_zero, List.map_nil, List.sum_nil, Nat.add_zero]
          omega
        | succ j2 =>
          rw [cum_cons]
          have := hprev j2 (Nat.lt_of_succ_lt_succ hj)
          omega

theorem next_singleton (y : T) (r : Nat) : States.next [(y, 1)] r = .ok y := by
  simp [States.next, States.total, States.find, Nat.mod_one]

/-! ### Walk lemmas -/

theorem walk_follows [DecidableEq T] (c : Chain T) (g : Nat → Nat) (l : List T) :
    ∀ (x : T) (i : Nat) (ret : List T) (fuel : Nat), FollowsTo c x l →
      l.length + 1 ≤ fuel → c.walk g fuel i x ret = .ok (ret ++ l) := by
  induction l with
  | nil =>
    intro x i ret fuel hf hfuel
    cases fuel with
    | zero => omega
    | succ f =>
      simp only [FollowsTo] at hf
      simp [Chain.walk, hf]
  | cons y rest ih =>
    intro x i ret fuel hf hfuel
    cases fuel with
    | zero => simp at hfuel
    | succ f =>
      simp only [FollowsTo] at hf
      rcases hf with ⟨hne, hlook, hrest⟩
      simp only [Chain.walk, if_neg hne, hlook, next_singleton]
      rw [ih y (i + 1) (ret ++ [y]) f hrest (by simp at hfuel ⊢; omega)]
      simp

theorem walk_ok_shape [DecidableEq T] (c : Chain T) (g : Nat → Nat) :
    ∀ (fuel : Nat) (i : Nat) (curs : T) (ret l : List T),
      c.walk g fuel i curs ret = .ok l →
      ∃ ext, l = ret ++ ext ∧ (∀ x ∈ ext.dropLast, x ≠ c.«end») ∧
        (curs = c.«end» → ext = []) ∧
        (curs ≠ c.«end» → ext ≠ [] ∧ ext.getLast? = some c.«end») := by
  intro fuel
  induction fuel with
  | zero =>
    intro i curs ret l h
    exact absurd h (by simp [Chain.walk])
  | succ f ih =>
    intro i curs ret l h
    simp only [Chain.walk] at h
    by_cases hcurs : curs = c.«end»
    · rw [if_pos hcurs] at h
      have hret : ret = l := Except.ok.inj h
      exact ⟨[], by rw [← hret, List.append_nil], by simp, fun _ => rfl,
        fun hne => absurd hcurs hne⟩
    · rw [if_neg hcurs] at h
      rcases hlook : lookup curs c.map with _ | tbl
      · rw [hlook] at h
        exact absurd h (by simp)
      · rw [hlook] at h
        simp only at h
        rcases hnext : States.next tbl (g i) with e | t
        · rw [hnext] at h
          exact absurd h (by simp)
        · rw [hnext] at h
          simp only at h
          rcases ih (i + 1) t (ret ++ [t]) l h with ⟨ext2, hl, hdrop, hend, hne⟩
          refine ⟨t :: ext2, by rw [hl]; simp, ?_, fun hh => absurd hh hcurs,
            fun _ => ⟨by simp, ?_⟩⟩
          · by_cases ht : t = c.«end»
            · rw [hend ht]
              simp
            · rcases hne ht with ⟨hne2, hlast⟩
              intro x hx
              rcases hext2 : ext2 with _ | ⟨z, zs⟩
              · rw [hext2] at hne2
                exact absurd rfl hne2
              · rw [hext2, dropLast_cons_cons] at hx
                rcases List.mem_cons.mp hx with h1 | h1
                · rw [h1]
                  exact ht
                · exact hdrop x (by rw [hext2]; exact h1)
          · by_cases ht : t = c.«end»
            · rw [hend ht]
              simp [ht]
            · rcases hne ht with ⟨hne2, hlast⟩
              rcases hext2 : ext2 with _ | ⟨z, zs⟩
              · rw [hext2] at hne2
                exact absurd rfl hne2
              · rw [List.getLast?_cons_cons]
                rw [← hext2]
                exact hlast

theorem pt_to_follows [DecidableEq T] (c : Chain T) :
    ∀ (l : List T) (x : T), PathTables c.map (x :: l) →
      (x :: l).getLast? = some c.«end» →
      (∀ y ∈ (x :: l).dropLast, y ≠ c.«end») → FollowsTo c x l := by
  intro l
  induction l with
  | nil =>
    intro x _ hlast _
    simp only [FollowsTo]
    simpa using hlast
  | cons y rest ih =>
    intro x hpt hlast hdrop
    simp only [PathTables] at hpt
    rcases hpt with ⟨hlook, hpt2⟩
    simp only [FollowsTo]
    refine ⟨?_, hlook, ?_⟩
    · apply hdrop
      rw [dropLast_cons_cons]
      exact List.mem_cons_self _ _
    · apply ih y hpt2
      · rw [← List.getLast?_cons_cons]
        exact hlast
      · intro z hz
        apply hdrop
        rw [dropLast_cons_cons]
        exact List.mem_cons_of_mem _ hz

/-! ### Single-path training -/

theorem recordPairs_path [DecidableEq T] :
    ∀ (p : List T) (m : List (T × List (T × Nat))), p.Nodup →
      (∀ x ∈ p.dropLast, lookup x m = some []) →
      ∃ M, recordPairs m p = .ok M ∧ PathTables M p ∧
        ∀ x, x ∉ p.dropLast → lookup x M = lookup x m := by
  intro p
  induction p with
  | nil =>
    intro m _ _
    exact ⟨m, rfl, trivial, fun x _ => rfl⟩
  | cons a rest ih =>
    intro m hnd hsrc
    cases rest with
    | nil => exact ⟨m, rfl, trivial, fun x _ => rfl⟩
    | cons b rest2 =>
      have ha : lookup a m = some [] := by
        apply hsrc
        rw [dropLast_cons_cons]
        exact List.mem_cons_self _ _
      have hrp : recordPair m a b = .ok (insertKV m a (States.add [] b)) :=
        recordPair_eq m a b [] ha
      have hanotin : a ∉ (b :: rest2) := (List.nodup_cons.mp hnd).1
      have hsrc1 : ∀ x ∈ (b :: rest2).dropLast,
          lookup x (insertKV m a (States.add [] b)) = some [] := by
        intro x hx
        have hxa : x ≠ a := by
          intro hh
          exact hanotin (by rw [← hh]; exact List.mem_of_mem_dropLast hx)
        rw [lookup_insertKV_ne m a x _ hxa]
        apply hsrc
        rw [dropLast_cons_cons]
        exact List.mem_cons_of_mem _ hx
      rcases ih (insertKV m a (States.add [] b)) (List.nodup_cons.mp hnd).2 hsrc1 with
        ⟨M, hrec, hpt, hpres⟩
      have hapres : a ∉ (b :: rest2).dropLast :=
        fun hh => hanotin (List.mem_of_mem_dropLast hh)
      refine ⟨M, ?_, ?_, ?_⟩
      · simp only [recordPairs]
        rw [hrp]
        exact hrec
      · simp only [PathTables]
        refine ⟨?_, hpt⟩
        rw [hpres a hapres, lookup_insertKV_self]
        rfl
      · intro x hx
        have hxa : x ≠ a := by
          intro hh
          apply hx
          rw [dropLast_cons_cons, hh]
          exact List.mem_cons_self _ _
        have hx2 : x ∉ (b :: rest2).dropLast := by
          intro hh
          apply hx
          rw [dropLast_cons_cons]
          exact List.mem_cons_of_mem _ hh
        rw [hpres x hx2, lookup_insertKV_ne m a x _ hxa]

theorem new_map [DecidableEq T] (s e : T) (h : s ≠ e) :
    (Chain.new s e).map = [(s, []), (e, [])] := by
  simp only [Chain.new, insertKV]
  rw [if_neg h]

theorem walk_step [DecidableEq T] (c : Chain T) (g : Nat → Nat) (f i : Nat)
    (curs t : T) (ret : List T) (tbl : List (T × Nat)) (hne : curs ≠ c.«end»)
    (hl : lookup curs c.map = some tbl) (hn : States.next tbl (g i) = .ok t) :
    c.walk g (f + 1) i curs ret = c.walk g f (i + 1) t (ret ++ [t]) := by
  simp only [Chain.walk, if_neg hne, hl, hn]

theorem walk_done [DecidableEq T] (c : Chain T) (g : Nat → Nat) (f i : Nat)
    (curs : T) (ret : List T) (hc : curs = c.«end») :
    c.walk g (f + 1) i curs ret = .ok ret := by
  simp [Chain.walk, hc]

/-! ### Claim theorems -/

/-- Claim C1 (amended): constructing a chain with distinct start `S` and end
`E` yields both sentinels as keys of the table with empty transition tables;
but `generate()` on the freshly constructed chain does not return an empty
sequence: it fails with the empty-distribution assertion panic raised inside
`gen_range` when sampling the start token's empty table. -/
theorem c1_new_keys_generate_panics [DecidableEq T] (S E : T) (g : Nat → Nat)
    (fuel : Nat) (hne : S ≠ E) (hf : 1 ≤ fuel) :
    lookup S (Chain.new S E).map = some [] ∧
      lookup E (Chain.new S E).map = some [] ∧
      (Chain.new S E).generate g fuel = .error .panicGenRangeLowGeHigh := by
  have hmap := new_map S E hne
  have hS : lookup S (Chain.new S E).map = some [] := by
    rw [hmap]
    simp [lookup]
  have hE : lookup E (Chain.new S E).map = some [] := by
    rw [hmap]
    simp [lookup]
  refine ⟨hS, hE, ?_⟩
  cases fuel with
  | zero => omega
  | succ f =>
    have hnext : States.next ([] : List (T × Nat)) (g 0) =
        .error .panicGenRangeLowGeHigh := by
      simp [States.next, States.total]
    have hstart : (Chain.new S E).start = S := rfl
    have hendf : (Chain.new S E).«end» = E := rfl
    simp only [Chain.generate, Chain.walk, hstart, hendf, if_neg hne, hS, hnext]

/-- Witness for C1 (amended) at `S = 0`, `E = 100`, the zero random stream
and fuel 1. -/
theorem c1_new_keys_generate_panics_witness :
    (0 : Nat) ≠ 100 ∧ (1 : Nat) ≤ 1 ∧
      (lookup (0 : Nat) (Chain.new (0 : Nat) 100).map = some [] ∧
        lookup (100 : Nat) (Chain.new (0 : Nat) 100).map = some [] ∧
        (Chain.new (0 : Nat) 100).generate (fun _ => 0) 1 =
          .error .panicGenRangeLowGeHigh) :=
  ⟨by decide, by decide,
    c1_new_keys_generate_panics 0 100 (fun _ => 0) 1 (by decide) (by decide)⟩

/-- Counterexample to C1 as stated: on the fresh chain `new(0, 100)`,
`generate()` does not return the empty sequence; it panics (the
empty-distribution assertion failure inside the sampler), refuting the
claim that it immediately returns an empty sequence. -/
theorem c1_counterexample :
    (Chain.new (0 : Nat) 100).generate (fun _ => 0) 1 =
        .error .panicGenRangeLowGeHigh ∧
      (Chain.new (0 : Nat) 100).generate (fun _ => 0) 1 ≠ .ok [] := by
  constructor
  · rfl
  · decide

/-- Claim C2 (amended): `generate_from_token` on a seed that is not a key of
the table (and differs from the end sentinel, which is always a key in any
constructed chain) fails by indexing the map at a missing key — a panic
(crash), not a catchable `TokenNotFound` error; no such error kind exists in
the code. -/
theorem c2_missing_seed_panics [DecidableEq T] (c : Chain T) (g : Nat → Nat)
    (fuel : Nat) (seed : T) (hk : lookup seed c.map = none)
    (hne : seed ≠ c.«end») (hf : 1 ≤ fuel) :
    c.generate_from_token g fuel seed = .error .panicKeyNotFound ∧
      MarkovError.panicKeyNotFound.isPanic = true := by
  refine ⟨?_, rfl⟩
  cases fuel with
  | zero => omega
  | succ f =>
    simp only [Chain.generate_from_token, Chain.walk, if_neg hne, hk]

/-- Witness for C2 (amended) at `new(0, 100)` probed with the never-fed
seed 5. -/
theorem c2_missing_seed_panics_witness :
    lookup (5 : Nat) (Chain.new (0 : Nat) 100).map = none ∧
      (5 : Nat) ≠ (Chain.new (0 : Nat) 100).«end» ∧ (1 : Nat) ≤ 1 ∧
      ((Chain.new (0 : Nat) 100).generate_from_token (fun _ => 0) 1 5 =
          .error .panicKeyNotFound ∧
        MarkovError.panicKeyNotFound.isPanic = true) :=
  ⟨by decide, by decide, by decide,
    c2_missing_seed_panics (Chain.new 0 100) (fun _ => 0) 1 5 (by decide)
      (by decide) (by decide)⟩

/-- Counterexample to C2 as stated: probing `new(0, 100)` with the never-fed
seed 5 crashes with the missing-key indexing panic; there is no catchable
`TokenNotFound` error returned to the caller (the embedding's error type,
taken from the code, has no such constructor). -/
theorem c2_counterexample :
    (Chain.new (0 : Nat) 100).generate_from_token (fun _ => 0) 5 5 =
        .error .panicKeyNotFound ∧
      MarkovError.panicKeyNotFound.isPanic = true := by
  constructor
  · rfl
  · rfl

/-- Claim C3: invoking `sample` (`States::next`) on a transition table whose
total observation count is zero fails with the explicitly checked assertion
failure of the uniform-range draw (`gen_range` asserts `low < high`, which
for `low = 0` checks exactly `total = 0`), and never silently produces a
successor. -/
theorem c3_empty_table_fatal (m : List (T × Nat)) (r : Nat)
    (h : States.total m = 0) :
    States.next m r = .error .panicGenRangeLowGeHigh ∧
      ∀ t : T, States.next m r ≠ .ok t := by
  have hnext : States.next m r = .error .panicGenRangeLowGeHigh := by
    unfold States.next
    rw [if_pos h]
  refine ⟨hnext, fun t hh => ?_⟩
  rw [hnext] at hh
  exact Except.noConfusion hh

/-- Witness for C3 at the empty table. -/
theorem c3_empty_table_fatal_witness :
    States.total ([] : List (Nat × Nat)) = 0 ∧
      (States.next ([] : List (Nat × Nat)) 0 = .error .panicGenRangeLowGeHigh ∧
        ∀ t : Nat, States.next ([] : List (Nat × Nat)) 0 ≠ .ok t) :=
  ⟨rfl, c3_empty_table_fatal [] 0 rfl⟩

/-- Claim C5: for a table with positive total and a draw `r < total`,
`sample` returns the first entry in iteration order whose cumulative count
exceeds `r`; such an entry always exists, so the `unreachable` branch after
the accumulation loop is never reached. -/
theorem c5_sample_first_exceed (m : List (T × Nat)) (r : Nat)
    (h : r < States.total m) :
    ∃ t, States.next m r = .ok t ∧ IsFirstExceed m r t ∧
      States.next m r ≠ .error .panicUnreachableRng := by
  have ht : ¬ States.total m = 0 := by omega
  have hcap : r % States.total m = r := Nat.mod_eq_of_lt h
  rcases find_spec m r 0 (Nat.zero_le r) (by omega) with ⟨i, hi, hfind, hcum, hprev⟩
  have hnext : States.next m r = .ok (m.get ⟨i, hi⟩).1 := by
    unfold States.next
    rw [if_neg ht, hcap]
    exact hfind
  refine ⟨(m.get ⟨i, hi⟩).1, hnext,
    ⟨i, hi, rfl, by omega, fun j hj => by have := hprev j hj; omega⟩, ?_⟩
  rw [hnext]
  exact fun hh => Except.noConfusion hh

/-- Witness for C5 at the table `[(7, 2)]` with draw 1. -/
theorem c5_sample_first_exceed_witness :
    (1 : Nat) < States.total [((7 : Nat), 2)] ∧
      (∃ t, States.next [((7 : Nat), 2)] 1 = .ok t ∧
        IsFirstExceed [((7 : Nat), 2)] 1 t ∧
        States.next [((7 : Nat), 2)] 1 ≠ .error .panicUnreachableRng) :=
  ⟨by decide, c5_sample_first_exceed [(7, 2)] 1 (by decide)⟩

/-- Claim C4: `feed([])` is a no-op returning the chain unchanged with no
error; `feed([v1, …, vn])` registers every `vi` as a table key and, for every
consecutive pair `(a, b)` of `[start, v1, …, vn, end]`, increments `a`'s
stored count for `b` by exactly one occurrence of that pair (inserting it at
1 if absent); since the new count is the old count plus the pair-occurrence
number, repeated feeds accumulate counts additively.  The hypothesis that
`start` is a key holds for every chain built by `new` (claim C7). -/
theorem c4_feed_noop_and_counts [DecidableEq T] (c : Chain T) (ts : List T)
    (hts : ts ≠ []) (hs : lookup c.start c.map ≠ none) :
    c.feed [] = .ok c ∧
      ∃ c2, c.feed ts = .ok c2 ∧
        (∀ v ∈ ts, lookup v c2.map ≠ none) ∧
        (∀ a b, c2.count a b =
          c.count a b + pairOcc ((c.start :: ts) ++ [c.«end»]) a b) := by
  refine ⟨rfl, ?_⟩
  rcases feed_spec c ts hts hs with ⟨c2, hok, hstart, hendf, hcount, hkeys, hgt, hpos⟩
  refine ⟨c2, hok, ?_, ?_⟩
  · intro v hv hnone
    exact ((hkeys v).mp hnone).2 hv
  · intro a b
    exact hcount a b

/-- Witness for C4 at `new(0, 100)` fed `[1]`. -/
theorem c4_feed_noop_and_counts_witness :
    ([1] : List Nat) ≠ [] ∧ lookup (0 : Nat) (Chain.new (0 : Nat) 100).map ≠ none ∧
      ((Chain.new (0 : Nat) 100).feed [] = .ok (Chain.new (0 : Nat) 100) ∧
        ∃ c2, (Chain.new (0 : Nat) 100).feed [1] = .ok c2 ∧
          (∀ v ∈ ([1] : List Nat), lookup v c2.map ≠ none) ∧
          (∀ a b, c2.count a b =
            (Chain.new (0 : Nat) 100).count a b +
              pairOcc (((Chain.new (0 : Nat) 100).start :: [1]) ++
                [(Chain.new (0 : Nat) 100).«end»]) a b)) :=
  ⟨by decide, by decide,
    c4_feed_noop_and_counts (Chain.new 0 100) [1] (by decide) (by decide)⟩

/-- Claim C10: a single feed of a non-empty sequence of `n` tokens performs
exactly `n + 1` increments: the sum of all counts over all transition tables
grows by exactly `n + 1`, and each individual count changes by exactly the
number of occurrences of its pair among the `n + 1` consecutive pairs of
`[start, v1, …, vn, end]` (so by at most +1 per pair occurrence). -/
theorem c10_feed_grand_total [DecidableEq T] (c : Chain T) (ts : List T)
    (hts : ts ≠ []) (hs : lookup c.start c.map ≠ none) :
    ∃ c2, c.feed ts = .ok c2 ∧
      c2.grandTotal = c.grandTotal + (ts.length + 1) ∧
      (∀ a b, c2.count a b =
        c.count a b + pairOcc ((c.start :: ts) ++ [c.«end»]) a b) := by
  rcases feed_spec c ts hts hs with ⟨c2, hok, hstart, hendf, hcount, hkeys, hgt, hpos⟩
  exact ⟨c2, hok, hgt, fun a b => hcount a b⟩

/-- Witness for C10 at `new(0, 100)` fed `[1]`. -/
theorem c10_feed_grand_total_witness :
    ([1] : List Nat) ≠ [] ∧ lookup (0 : Nat) (Chain.new (0 : Nat) 100).map ≠ none ∧
      ∃ c2, (Chain.new (0 : Nat) 100).feed [1] = .ok c2 ∧
        c2.grandTotal = (Chain.new (0 : Nat) 100).grandTotal + (([1] : List Nat).length + 1) ∧
        (∀ a b, c2.count a b =
          (Chain.new (0 : Nat) 100).count a b +
            pairOcc (((Chain.new (0 : Nat) 100).start :: [1]) ++
              [(Chain.new (0 : Nat) 100).«end»]) a b) :=
  ⟨by decide, by decide,
    c10_feed_grand_total (Chain.new 0 100) [1] (by decide) (by decide)⟩

/-- Claim C7: `new` establishes the invariant (both sentinels are keys, all
stored counts positive), and every successful `feed` preserves it; moreover
`feed` never removes a key and never decreases a count (the chain is
monotonically accumulating).  `generate` and `generate_from_token` are pure
reads in the embedding (they return a value and leave the chain untouched),
so they preserve the invariant trivially. -/
theorem c7_invariants [DecidableEq T] (s e : T) (c c2 : Chain T) (ts : List T)
    (hc : c.Inv) (hf : c.feed ts = .ok c2) :
    (Chain.new s e).Inv ∧ c2.Inv ∧
      (∀ k, lookup k c.map ≠ none → lookup k c2.map ≠ none) ∧
      (∀ a b, c.count a b ≤ c2.count a b) := by
  obtain ⟨hcs, hce, hcp⟩ := hc
  have hnew : (Chain.new s e).Inv := by
    unfold Chain.Inv
    refine ⟨?_, ?_, ?_⟩
    · show lookup s (insertKV (insertKV [] s []) e []) ≠ none
      by_cases hse : s = e
      · rw [hse, lookup_insertKV_self]
        simp
      · rw [lookup_insertKV_ne _ e s [] hse, lookup_insertKV_self]
        simp
    · show lookup e (insertKV (insertKV [] s []) e []) ≠ none
      rw [lookup_insertKV_self]
      simp
    · intro p hp q hq
      rcases mem_insertKV _ e [] p hp with h2 | h2
      · rcases mem_insertKV _ s [] p h2 with h3 | h3
        · simp at h3
        · rw [h3] at hq
          simp at hq
      · rw [h2] at hq
        simp at hq
  by_cases hts : ts = []
  · rw [hts] at hf
    have h0 : c.feed [] = .ok c := rfl
    rw [h0] at hf
    have : c = c2 := Except.ok.inj hf
    rw [← this]
    exact ⟨hnew, ⟨hcs, hce, hcp⟩, fun k hk => hk, fun a b => Nat.le_refl _⟩
  · rcases feed_spec c ts hts hcs with ⟨c2x, hok, hstart, hendf, hcount, hkeys, hgt, hpos⟩
    rw [hok] at hf
    have hx : c2x = c2 := Except.ok.inj hf
    rw [← hx]
    refine ⟨hnew, ?_, ?_, ?_⟩
    · unfold Chain.Inv
      refine ⟨?_, ?_, hpos hcp⟩
      · rw [hstart]
        intro hnone
        exact hcs ((hkeys c.start).mp hnone).1
      · rw [hendf]
        intro hnone
        exact hce ((hkeys c.«end»).mp hnone).1
    · intro k hk hnone
      exact hk ((hkeys k).mp hnone).1
    · intro a b
      show tblCount c.map a b ≤ tblCount c2x.map a b
      rw [hcount a b]
      exact Nat.le_add_right _ _

/-- Witness for C7: the invariant holds for `new(0, 100)` and is preserved
by feeding `[1]`. -/
theorem c7_invariants_witness :
    (Chain.new (0 : Nat) 100).Inv ∧
      (Chain.new (0 : Nat) 100).feed [1] =
        .ok ⟨[(0, [(1, 1)]), (100, []), (1, [(100, 1)])], 0, 100⟩ ∧
      ((Chain.new (3 : Nat) 4).Inv ∧
        (⟨[(0, [(1, 1)]), (100, []), (1, [(100, 1)])], 0, 100⟩ : Chain Nat).Inv ∧
        (∀ k, lookup k (Chain.new (0 : Nat) 100).map ≠ none →
          lookup k (⟨[(0, [(1, 1)]), (100, []), (1, [(100, 1)])], 0, 100⟩ : Chain Nat).map ≠ none) ∧
        (∀ a b, (Chain.new (0 : Nat) 100).count a b ≤
          (⟨[(0, [(1, 1)]), (100, []), (1, [(100, 1)])], 0, 100⟩ : Chain Nat).count a b)) :=
  ⟨⟨by decide, by decide, by decide⟩, by decide,
    c7_invariants 3 4 (Chain.new 0 100)
      ⟨[(0, [(1, 1)]), (100, []), (1, [(100, 1)])], 0, 100⟩ [1]
      ⟨by decide, by decide, by decide⟩ (by decide)⟩

/-- Claim C8 (amended): for a seed that is a key of the table and differs
from the end sentinel, a successful `generate_from_token(seed)` returns a
sequence whose first element is the seed, and the end sentinel never occurs
in the sequences returned by either `generate` or `generate_from_token`.
(For `seed = end` — a key of every constructed chain — the call returns the
empty sequence instead, which is the counterexample to the claim as
stated.) -/
theorem c8_seed_head_end_excluded [DecidableEq T] (c : Chain T) (g : Nat → Nat)
    (fuel : Nat) (seed : T) (l l2 : List T)
    (_hk : lookup seed c.map ≠ none) (hne : seed ≠ c.«end»)
    (h1 : c.generate_from_token g fuel seed = .ok l)
    (h2 : c.generate g fuel = .ok l2) :
    l.head? = some seed ∧ c.«end» ∉ l ∧ c.«end» ∉ l2 := by
  unfold Chain.generate_from_token at h1
  unfold Chain.generate at h2
  rcases hw : c.walk g fuel 0 seed [seed] with e | l0
  · rw [hw] at h1
    simp at h1
  · rw [hw] at h1
    simp only [Except.ok.injEq] at h1
    rcases walk_ok_shape c g fuel 0 seed [seed] l0 hw with ⟨ext, hl0, hdrop, _, hnonempty⟩
    rcases hnonempty hne with ⟨hextne, hlast⟩
    have hl : l = seed :: ext.dropLast := by
      rw [← h1, hl0, List.dropLast_append_of_ne_nil [seed] hextne,
        List.singleton_append]
    refine ⟨?_, ?_, ?_⟩
    · rw [hl]
      rfl
    · rw [hl]
      intro hmem
      rcases List.mem_cons.mp hmem with hm | hm
      · exact hne hm.symm
      · exact hdrop _ hm rfl
    · rcases hw2 : c.walk g fuel 0 c.start [] with e2 | l0b
      · rw [hw2] at h2
        simp at h2
      · rw [hw2] at h2
        simp only [Except.ok.injEq] at h2
        rcases walk_ok_shape c g fuel 0 c.start [] l0b hw2 with ⟨ext2, hl0b, hdrop2, _, _⟩
        rw [List.nil_append] at hl0b
        intro hmem
        rw [← h2, hl0b] at hmem
        exact hdrop2 _ hmem rfl

/-- Witness for C8 (amended) on the chain trained by `new(0, 100).feed([1])`
with seed 1, where both generation calls succeed. -/
theorem c8_seed_head_end_excluded_witness :
    lookup (1 : Nat) (⟨[(0, [(1, 1)]), (100, []), (1, [(100, 1)])], 0, 100⟩ : Chain Nat).map ≠ none ∧
      (1 : Nat) ≠ (⟨[(0, [(1, 1)]), (100, []), (1, [(100, 1)])], 0, 100⟩ : Chain Nat).«end» ∧
      (⟨[(0, [(1, 1)]), (100, []), (1, [(100, 1)])], 0, 100⟩ : Chain Nat).generate_from_token
        (fun _ => 0) 5 1 = .ok [1] ∧
      (⟨[(0, [(1, 1)]), (100, []), (1, [(100, 1)])], 0, 100⟩ : Chain Nat).generate
        (fun _ => 0) 5 = .ok [1] ∧
      (([1] : List Nat).head? = some 1 ∧
        (⟨[(0, [(1, 1)]), (100, []), (1, [(100, 1)])], 0, 100⟩ : Chain Nat).«end» ∉ ([1] : List Nat) ∧
        (⟨[(0, [(1, 1)]), (100, []), (1, [(100, 1)])], 0, 100⟩ : Chain Nat).«end» ∉ ([1] : List Nat)) :=
  ⟨by decide, by decide, by decide, by decide,
    c8_seed_head_end_excluded ⟨[(0, [(1, 1)]), (100, []), (1, [(100, 1)])], 0, 100⟩
      (fun _ => 0) 5 1 [1] [1] (by decide) (by decide) (by decide) (by decide)⟩

/-- Counterexample to C8 as stated: in `new(0, 100)` the end sentinel 100 is
a key of the table, yet `generate_from_token(100)` returns the empty
sequence, whose first element is not the seed. -/
theorem c8_counterexample :
    lookup (100 : Nat) (Chain.new (0 : Nat) 100).map = some [] ∧
      (Chain.new (0 : Nat) 100).generate_from_token (fun _ => 0) 5 100 = .ok [] ∧
      ([] : List Nat).head? ≠ some 100 :=
  ⟨by decide, by decide, by decide⟩

/-- Claim C9 (amended): for distinct sentinels `s ≠ e`, a chain trained by
exactly one feed of a single unbranching path (a non-empty duplicate-free
sequence of tokens, none equal to the start or end value) generates
deterministically: for every random stream and every sufficient fuel bound,
`generate()` returns exactly the fed sequence.  (When `s = e` the walk stops
immediately and returns the empty sequence instead, which is the
counterexample to the claim as stated.) -/
theorem c9_single_path_deterministic [DecidableEq T] (s e : T) (ts : List T)
    (hse : s ≠ e) (hts : ts ≠ []) (hnd : ts.Nodup) (hs : s ∉ ts) (he : e ∉ ts) :
    ∃ c, (Chain.new s e).feed ts = .ok c ∧
      ∀ (g : Nat → Nat) (fuel : Nat), ts.length + 2 ≤ fuel →
        c.generate g fuel = .ok ts := by
  have hlen : ¬ ts.length = 0 := fun hh => hts (List.length_eq_zero.mp hh)
  have hmap : (Chain.new s e).map = [(s, []), (e, [])] := new_map s e hse
  have hstart : (Chain.new s e).start = s := rfl
  have hendf : (Chain.new s e).«end» = e := rfl
  set m1 := ts.foldl registerTok (Chain.new s e).map with hm1
  have hnodup : ((s :: ts) ++ [e]).Nodup := by
    rw [List.nodup_append]
    refine ⟨List.nodup_cons.mpr ⟨hs, hnd⟩, List.nodup_singleton e, ?_⟩
    intro a ha hae
    rw [List.mem_singleton] at hae
    rw [hae] at ha
    rcases List.mem_cons.mp ha with h1 | h1
    · exact hse h1.symm
    · exact he h1
  have hsrc : ∀ x ∈ ((s :: ts) ++ [e]).dropLast, lookup x m1 = some [] := by
    intro x hx
    rw [List.dropLast_concat] at hx
    rcases List.mem_cons.mp hx with h1 | h1
    · have hxv : lookup x (Chain.new s e).map = some [] := by
        rw [hmap, h1]
        simp [lookup]
      rw [hm1]
      exact lookup_foldl_register_some ts (Chain.new s e).map x [] hxv
    · have hxs : ¬ s = x := fun hh => hs (by rw [hh]; exact h1)
      have hxe : ¬ e = x := fun hh => he (by rw [hh]; exact h1)
      have hnone : lookup x (Chain.new s e).map = none := by
        rw [hmap]
        simp [lookup, hxs, hxe]
      rw [hm1, lookup_foldl_register_mem ts (Chain.new s e).map x h1, hnone]
      rfl
  rcases recordPairs_path ((s :: ts) ++ [e]) m1 hnodup hsrc with ⟨M, hrec, hpt, _⟩
  refine ⟨⟨M, s, e⟩, ?_, ?_⟩
  · unfold Chain.feed
    rw [if_neg hlen, hstart, hendf]
    simp only [← hm1]
    rw [hrec]
  · intro g fuel hfuel
    have hfollow : FollowsTo ⟨M, s, e⟩ s (ts ++ [e]) := by
      apply pt_to_follows
      · show PathTables M (s :: (ts ++ [e]))
        rw [← List.cons_append]
        exact hpt
      · show (s :: (ts ++ [e])).getLast? = some e
        rw [← List.cons_append, List.getLast?_concat]
      · intro y hy
        show y ≠ e
        rw [← List.cons_append, List.dropLast_concat] at hy
        rcases List.mem_cons.mp hy with h1 | h1
        · rw [h1]
          exact hse
        · exact fun hh => he (by rw [← hh]; exact h1)
    have hwalk := walk_follows ⟨M, s, e⟩ g (ts ++ [e]) s 0 [] fuel hfollow
      (by simp only [List.length_append, List.length_cons, List.length_nil]; omega)
    unfold Chain.generate
    rw [show (⟨M, s, e⟩ : Chain T).start = s from rfl, hwalk]
    simp only [List.nil_append, Except.ok.injEq]
    exact List.dropLast_concat

/-- Witness for C9 (amended) at `new(0, 100)` fed the single path `[1]`. -/
theorem c9_single_path_deterministic_witness :
    (0 : Nat) ≠ 100 ∧ ([1] : List Nat) ≠ [] ∧ ([1] : List Nat).Nodup ∧
      (0 : Nat) ∉ ([1] : List Nat) ∧ (100 : Nat) ∉ ([1] : List Nat) ∧
      ∃ c, (Chain.new (0 : Nat) 100).feed [1] = .ok c ∧
        ∀ (g : Nat → Nat) (fuel : Nat), ([1] : List Nat).length + 2 ≤ fuel →
          c.generate g fuel = .ok [1] :=
  ⟨by decide, by decide, by decide, by decide, by decide,
    c9_single_path_deterministic 0 100 [1] (by decide) (by decide) (by decide)
      (by decide) (by decide)⟩

/-- Counterexample to C9 as stated: with coinciding sentinels
`start = end = 0`, feeding the single unbranching path `[1]` (whose token is
distinct from both sentinel values) and generating returns the empty
sequence — not the fed sequence — because the walk starts at the end token
and stops immediately. -/
theorem c9_counterexample :
    ((Chain.new (0 : Nat) 0).feed [1]).bind
        (fun c => c.generate (fun _ => 0) 5) = .ok [] ∧
      ([] : List Nat) ≠ [1] :=
  ⟨by decide, by decide⟩

/-- Claim C6: training `new(0, 100)` with `feed([3, 5, 10])` then
`feed([5, 12])` yields exactly the state `chainC6`, and on it every
`generate()` call with fuel at least 5 terminates (the walk needs at most
four sampling steps) and returns one of exactly the four sequences
`[3, 5, 10]`, `[3, 5, 12]`, `[5, 10]`, `[5, 12]`, for every random
stream. -/
theorem c6_two_feeds_four_outputs (g : Nat → Nat) (fuel : Nat) (hf : 5 ≤ fuel) :
    ((Chain.new (0 : Nat) 100).feed [3, 5, 10]).bind (fun x => x.feed [5, 12]) =
        .ok chainC6 ∧
      (chainC6.generate g fuel = .ok [3, 5, 10] ∨
        chainC6.generate g fuel = .ok [3, 5, 12] ∨
        chainC6.generate g fuel = .ok [5, 10] ∨
        chainC6.generate g fuel = .ok [5, 12]) := by
  refine ⟨by decide, ?_⟩
  obtain ⟨k, hk⟩ : ∃ k, fuel = k + 5 := ⟨fuel - 5, by omega⟩
  subst hk
  have hbranch : ∀ (y z r : Nat),
      States.next [(y, 1), (z, 1)] r = .ok y ∨
        States.next [(y, 1), (z, 1)] r = .ok z := by
    intro y z r
    rcases Nat.mod_two_eq_zero_or_one r with h | h
    · left
      simp [States.next, States.total, States.find, h]
    · right
      simp [States.next, States.total, States.find, h]
  rcases hbranch 3 5 (g 0) with h0 | h0
  · rcases hbranch 10 12 (g 2) with h2 | h2
    · left
      have hwalk : chainC6.walk g (k + 5) 0 0 [] = .ok [3, 5, 10, 100] := by
        rw [show k + 5 = (k + 4) + 1 from rfl,
          walk_step chainC6 g (k + 4) 0 0 3 [] [(3, 1), (5, 1)] (by decide) rfl h0]
        rw [show k + 4 = (k + 3) + 1 from rfl,
          walk_step chainC6 g (k + 3) 1 3 5 ([] ++ [3]) [(5, 1)] (by decide) rfl
            (next_singleton 5 (g 1))]
        rw [show k + 3 = (k + 2) + 1 from rfl,
          walk_step chainC6 g (k + 2) 2 5 10 (([] ++ [3]) ++ [5]) [(10, 1), (12, 1)]
            (by decide) rfl h2]
        rw [show k + 2 = (k + 1) + 1 from rfl,
          walk_step chainC6 g (k + 1) 3 10 100 ((([] ++ [3]) ++ [5]) ++ [10])
            [(100, 1)] (by decide) rfl (next_singleton 100 (g 3))]
        rw [walk_done chainC6 g k 4 100 (((([] ++ [3]) ++ [5]) ++ [10]) ++ [100]) rfl]
        rfl
      unfold Chain.generate
      rw [show chainC6.start = (0 : Nat) from rfl, hwalk]
      rfl
    · right
      left
      have hwalk : chainC6.walk g (k + 5) 0 0 [] = .ok [3, 5, 12, 100] := by
        rw [show k + 5 = (k + 4) + 1 from rfl,
          walk_step chainC6 g (k + 4) 0 0 3 [] [(3, 1), (5, 1)] (by decide) rfl h0]
        rw [show k + 4 = (k + 3) + 1 from rfl,
          walk_step chainC6 g (k + 3) 1 3 5 ([] ++ [3]) [(5, 1)] (by decide) rfl
            (next_singleton 5 (g 1))]
        rw [show k + 3 = (k + 2) + 1 from rfl,
          walk_step chainC6 g (k + 2) 2 5 12 (([] ++ [3]) ++ [5]) [(10, 1), (12, 1)]
            (by decide) rfl h2]
        rw [show k + 2 = (k + 1) + 1 from rfl,
          walk_step chainC6 g (k + 1) 3 12 100 ((([] ++ [3]) ++ [5]) ++ [12])
            [(100, 1)] (by decide) rfl (next_singleton 100 (g 3))]
        rw [walk_done chainC6 g k 4 100 (((([] ++ [3]) ++ [5]) ++ [12]) ++ [100]) rfl]
        rfl
      unfold Chain.generate
      rw [show chainC6.start = (0 : Nat) from rfl, hwalk]
      rfl
  · rcases hbranch 10 12 (g 1) with h2 | h2
    · right
      right
      left
      have hwalk : chainC6.walk g (k + 5) 0 0 [] = .ok [5, 10, 100] := by
        rw [show k + 5 = (k + 4) + 1 from rfl,
          walk_step chainC6 g (k + 4) 0 0 5 [] [(3, 1), (5, 1)] (by decide) rfl h0]
        rw [show k + 4 = (k + 3) + 1 from rfl,
          walk_step chainC6 g (k + 3) 1 5 10 ([] ++ [5]) [(10, 1), (12, 1)]
            (by decide) rfl h2]
        rw [show k + 3 = (k + 2) + 1 from rfl,
          walk_step chainC6 g (k + 2) 2 10 100 (([] ++ [5]) ++ [10]) [(100, 1)]
            (by decide) rfl (next_singleton 100 (g 2))]
        rw [show k + 2 = (k + 1) + 1 from rfl,
          walk_done chainC6 g (k + 1) 3 100 ((([] ++ [5]) ++ [10]) ++ [100]) rfl]
        rfl
      unfold Chain.generate
      rw [show chainC6.start = (0 : Nat) from rfl, hwalk]
      rfl
    · right
      right
      right
      have hwalk : chainC6.walk g (k + 5) 0 0 [] = .ok [5, 12, 100] := by
        rw [show k + 5 = (k + 4) + 1 from rfl,
          walk_step chainC6 g (k + 4) 0 0 5 [] [(3, 1), (5, 1)] (by decide) rfl h0]
        rw [show k + 4 = (k + 3) + 1 from rfl,
          walk_step chainC6 g (k + 3) 1 5 12 ([] ++ [5]) [(10, 1), (12, 1)]
            (by decide) rfl h2]
        rw [show k + 3 = (k + 2) + 1 from rfl,
          walk_step chainC6 g (k + 2) 2 12 100 (([] ++ [5]) ++ [12]) [(100, 1)]
            (by decide) rfl (next_singleton 100 (g 2))]
        rw [show k + 2 = (k + 1) + 1 from rfl,
          walk_done chainC6 g (k + 1) 3 100 ((([] ++ [5]) ++ [12]) ++ [100]) rfl]
        rfl
      unfold Chain.generate
      rw [show chainC6.start = (0 : Nat) from rfl, hwalk]
      rfl

/-- Witness for C6 at the zero random stream and fuel 5. -/
theorem c6_two_feeds_four_outputs_witness :
    (5 : Nat) ≤ 5 ∧
      (((Chain.new (0 : Nat) 100).feed [3, 5, 10]).bind (fun x => x.feed [5, 12]) =
          .ok chainC6 ∧
        (chainC6.generate (fun _ => 0) 5 = .ok [3, 5, 10] ∨
          chainC6.generate (fun _ => 0) 5 = .ok [3, 5, 12] ∨
          chainC6.generate (fun _ => 0) 5 = .ok [5, 10] ∨
          chainC6.generate (fun _ => 0) 5 = .ok [5, 12])) :=
  ⟨by decide, c6_two_feeds_four_outputs (fun _ => 0) 5 (by decide)⟩

end Markov
